import Mathlib

/-!
Verification of the DS210Project graph-statistics engine.

The repository loads an undirected multigraph from a whitespace-separated
edge list (petgraph `Graph<(), (), Undirected>`), computes the degree
distribution, and derives separation statistics (mean, population standard
deviation, median) from the multiset of all positive pairwise shortest-path
distances collected by running `dijkstra` with unit edge weights from every
node.

Shallow embedding conventions:
- a petgraph graph is a node count together with the list of inserted edges
  (edge insertion order preserved, duplicates kept — petgraph is a
  multigraph);
- text lines are `List Char`; Rust `split_whitespace` is modelled by a fold
  that collects maximal nonempty runs of non-whitespace characters;
- `f64` values are modelled as `ℚ` (every collected distance is a small
  positive integer, exactly representable; sums and quotients of such
  values are computed exactly by the embedding) and `sqrt` as `Real.sqrt`;
- the `HashMap` returned by `dijkstra` is modelled by enumerating the
  distance values in node-index order; every use in the source (summing,
  counting, collecting into a vector that is subsequently sorted) is
  insensitive to the enumeration order in exact arithmetic;
- the degree-count `HashMap` is modelled extensionally as a function
  `Nat → Nat` from degree to number of nodes with that degree.
-/

namespace DS210

/-- Model of petgraph `Graph<(), (), Undirected>`: number of nodes
(indices `0 .. nodeCount-1`) and the list of inserted undirected edges,
in insertion order, duplicates kept. -/
structure UGraph where
  nodeCount : Nat
  edges : List (Nat × Nat)
  deriving DecidableEq, Repr

/-- Helper of `tokenize`: flush the (reversed) current token into the
accumulated token list; an empty current token contributes nothing. -/
def pushTok (st : List (List Char) × List Char) : List (List Char) :=
  if st.2 = [] then st.1 else st.1 ++ [st.2.reverse]

/-- Model of Rust `str::split_whitespace`: the maximal nonempty runs of
non-whitespace characters of the line, in order. -/
def tokenize (line : List Char) : List (List Char) :=
  pushTok (line.foldl
    (fun st c => if c.isWhitespace then (pushTok st, []) else (st.1, c :: st.2))
    ([], []))

/-- Model of `node_map.entry(name).or_insert_with(|| graph.add_node(()))`:
the name-to-index map is the list of node names in first-seen order, the
index of a name is its position; an unseen name is appended and receives
the next free index. -/
def getOrInsert (names : List (List Char)) (s : List Char) :
    List (List Char) × Nat :=
  match names with
  | [] => ([s], 0)
  | t :: rest =>
    if t = s then (t :: rest, 0)
    else
      let r := getOrInsert rest s
      (t :: r.1, r.2 + 1)

/-- One iteration of the line loop of `load_edges`: split the line on
whitespace; if there are exactly two tokens, resolve (or create) both node
indices and append the edge; otherwise leave the state unchanged. -/
def loadStep (st : List (List Char) × List (Nat × Nat)) (line : List Char) :
    List (List Char) × List (Nat × Nat) :=
  let toks := tokenize line
  if toks.length = 2 then
    let r1 := getOrInsert st.1 (toks.getD 0 [])
    let r2 := getOrInsert r1.1 (toks.getD 1 [])
    (r2.1, st.2 ++ [(r1.2, r2.2)])
  else st

/-- Model of `load_edges` on the list of lines of the input file. -/
def load_edges (lines : List (List Char)) : UGraph :=
  let st := lines.foldl loadStep ([], [])
  ⟨st.1.length, st.2⟩

/-- Model of petgraph `graph.neighbors(v)` for an undirected graph: one
entry per stored edge incident to `v` (parallel edges contribute one entry
each; a self-loop at `v` contributes a single entry). -/
def nbrs (g : UGraph) (v : Nat) : List Nat :=
  g.edges.foldr
    (fun e acc =>
      if e.1 = v then e.2 :: acc else if e.2 = v then e.1 :: acc else acc)
    []

/-- Model of `graph.neighbors(node).count()`, the degree used by
`calculate_degree_distribution`. -/
def neighborsCount (g : UGraph) (v : Nat) : Nat :=
  (nbrs g v).length

/-- Model of `calculate_degree_distribution`: the degree-to-count
`HashMap`, represented extensionally as the function sending a degree to
the number of nodes having that degree. -/
def calculate_degree_distribution (g : UGraph) : Nat → Nat :=
  fun d =>
    ((List.range g.nodeCount).filter
      (fun v => decide (neighborsCount g v = d))).length

/-- Nodes reachable from `u` by a walk of at most `k` edges (with
multiplicity; only membership is ever used). -/
def ball (g : UGraph) (u : Nat) : Nat → List Nat
  | 0 => [u]
  | k + 1 => ball g u k ++ (ball g u k).flatMap (nbrs g)

/-- Model of the distance map returned by `dijkstra(graph, u, None, |_| 1)`
at node `v`: the least number of edges of a walk from `u` to `v`, `none`
when `v` is unreachable from `u`.  A shortest walk between nodes of the
graph uses fewer than `nodeCount` edges, so searching radii
`0 .. nodeCount - 1` is exhaustive. -/
def dist (g : UGraph) (u v : Nat) : Option Nat :=
  (List.range g.nodeCount).find? (fun k => decide (v ∈ ball g u k))

/-- Values of the `dijkstra` distance map for source `s` (one entry per
reachable node, including `0` for `s` itself), enumerated in node-index
order. -/
def dijkstraValues (g : UGraph) (s : Nat) : List Nat :=
  (List.range g.nodeCount).filterMap (fun t => dist g s t)

/-- The distance sample collected identically by all three statistics
functions of `stats.rs`: for every source node, the strictly positive
values of its `dijkstra` distance map. -/
def sample (g : UGraph) : List Nat :=
  (List.range g.nodeCount).flatMap
    (fun s => (dijkstraValues g s).filter (fun d => decide (0 < d)))

/-- The distance sample with each entry cast `as f64` (modelled in `ℚ`). -/
def sampleQ (g : UGraph) : List ℚ :=
  (sample g).map (fun (d : Nat) => (d : ℚ))

/-- Body of `calculate_mean_separation` as a function of the collected
sample: `total_distance / pair_count`, with the explicit
division-by-zero guard returning `0.0`. -/
def meanList (l : List ℚ) : ℚ :=
  if l.length = 0 then 0 else l.sum / (l.length : ℚ)

/-- Model of `calculate_mean_separation`. -/
def calculate_mean_separation (g : UGraph) : ℚ :=
  meanList (sampleQ g)

/-- Body of `calculate_standard_deviation_separation` as a function of the
collected sample: `0.0` on an empty sample, otherwise the square root of
the sum of squared deviations from the sample mean divided by the full
sample count. -/
noncomputable def stddevList (l : List ℚ) : ℝ :=
  if l.isEmpty then 0
  else
    let mean : ℚ := l.sum / (l.length : ℚ)
    let variance : ℚ :=
      ((l.map (fun d => (d - mean) ^ 2)).sum) / (l.length : ℚ)
    Real.sqrt (variance : ℝ)

/-- Model of `calculate_standard_deviation_separation`. -/
noncomputable def calculate_standard_deviation_separation (g : UGraph) : ℝ :=
  stddevList (sampleQ g)

/-- Body of `calculate_median_separation` as a function of the collected
sample: `0.0` on an empty sample, otherwise sort ascending and take the
middle element (odd length) or the mean of the two central elements (even
length). -/
def medianList (l : List ℚ) : ℚ :=
  if l.isEmpty then 0
  else
    let s := List.insertionSort (fun a b => a ≤ b) l
    let mid := s.length / 2
    if s.length % 2 = 0 then (s.getD (mid - 1) 0 + s.getD mid 0) / 2
    else s.getD mid 0

/-- Model of `calculate_median_separation`. -/
def calculate_median_separation (g : UGraph) : ℚ :=
  medianList (sampleQ g)

/-- Specification-side list of ordered pairs `(s, t)` with `t` reachable
from `s` and `t ≠ s`. -/
def pairList (g : UGraph) : List (Nat × Nat) :=
  (List.range g.nodeCount).flatMap
    (fun s =>
      ((List.range g.nodeCount).filter
        (fun t => decide (t ≠ s ∧ (dist g s t).isSome))).map (fun t => (s, t)))

/-- Distance with default `0` (only applied to reachable pairs). -/
def distD (g : UGraph) (s t : Nat) : Nat :=
  (dist g s t).getD 0

/-- Specification-side deduplicated sample: the distance of each unordered
pair of distinct mutually reachable nodes counted once (via its
representative `(s, t)` with `s < t`). -/
def dedupSample (g : UGraph) : List Nat :=
  (List.range g.nodeCount).flatMap
    (fun s =>
      (((List.range g.nodeCount).filter (fun t => decide (s < t))).filterMap
        (fun t => dist g s t)).filter (fun d => decide (0 < d)))

/-- The deduplicated sample, cast to `ℚ`. -/
def dedupQ (g : UGraph) : List ℚ :=
  (dedupSample g).map (fun (d : Nat) => (d : ℚ))

/-! ### Adjacency and distance lemmas -/

theorem mem_foldr_nbrs (es : List (Nat × Nat)) (u v : Nat) :
    v ∈ es.foldr
      (fun e acc =>
        if e.1 = u then e.2 :: acc else if e.2 = u then e.1 :: acc else acc)
      [] ↔ (u, v) ∈ es ∨ (v, u) ∈ es := by
  induction es with
  | nil => simp
  | cons a es ih =>
    rcases a with ⟨x, y⟩
    by_cases hx : x = u <;> by_cases hy : y = u <;>
      simp [hx, hy, ih, Prod.ext_iff] <;> tauto

theorem mem_nbrs {g : UGraph} {u v : Nat} :
    v ∈ nbrs g u ↔ (u, v) ∈ g.edges ∨ (v, u) ∈ g.edges :=
  mem_foldr_nbrs g.edges u v

theorem nbrs_symm {g : UGraph} {u v : Nat} (h : v ∈ nbrs g u) :
    u ∈ nbrs g v := by
  rw [mem_nbrs] at h ⊢
  tauto

theorem ball_subset_succ {g : UGraph} {u x : Nat} {k : Nat}
    (h : x ∈ ball g u k) : x ∈ ball g u (k + 1) := by
  show x ∈ ball g u k ++ (ball g u k).flatMap (nbrs g)
  exact List.mem_append_left _ h

theorem mem_ball_self (g : UGraph) (u : Nat) (k : Nat) : u ∈ ball g u k := by
  induction k with
  | zero => simp [ball]
  | succ k ih => exact ball_subset_succ ih

theorem mem_ball_succ {g : UGraph} {u v : Nat} {k : Nat} :
    v ∈ ball g u (k + 1) ↔
      v ∈ ball g u k ∨ ∃ w ∈ ball g u k, v ∈ nbrs g w := by
  simp [ball]

theorem mem_ball_succ_cons {g : UGraph} {k : Nat} {u v : Nat} :
    v ∈ ball g u (k + 1) ↔ v = u ∨ ∃ y ∈ nbrs g u, v ∈ ball g y k := by
  induction k generalizing u v with
  | zero => simp [ball]
  | succ k ih =>
    constructor
    · intro h
      rcases mem_ball_succ.mp h with h | ⟨w, hw, hv⟩
      · rcases ih.mp h with h | ⟨y, hy, hball⟩
        · exact Or.inl h
        · exact Or.inr ⟨y, hy, ball_subset_succ hball⟩
      · rcases ih.mp hw with rfl | ⟨y, hy, hball⟩
        · exact Or.inr ⟨v, hv, mem_ball_self g v (k + 1)⟩
        · exact Or.inr ⟨y, hy, mem_ball_succ.mpr (Or.inr ⟨w, hball, hv⟩)⟩
    · rintro (rfl | ⟨y, hy, hball⟩)
      · exact mem_ball_self g v (k + 2)
      · rcases mem_ball_succ.mp hball with h | ⟨w, hw, hv⟩
        · exact ball_subset_succ (ih.mpr (Or.inr ⟨y, hy, h⟩))
        · exact mem_ball_succ.mpr
            (Or.inr ⟨w, ih.mpr (Or.inr ⟨y, hy, hw⟩), hv⟩)

theorem ball_symm {g : UGraph} {k : Nat} {u v : Nat}
    (h : v ∈ ball g u k) : u ∈ ball g v k := by
  induction k generalizing u v with
  | zero =>
    simp [ball] at h
    simp [ball, h]
  | succ k ih =>
    rcases mem_ball_succ.mp h with h | ⟨w, hw, hv⟩
    · exact ball_subset_succ (ih h)
    · exact mem_ball_succ_cons.mpr (Or.inr ⟨w, nbrs_symm hv, ih hw⟩)

theorem find?_ext {p q : Nat → Bool} (l : List Nat)
    (h : ∀ a ∈ l, p a = q a) : l.find? p = l.find? q := by
  induction l with
  | nil => rfl
  | cons a l ih =>
    have ha : p a = q a := h a (List.mem_cons_self a l)
    rcases hq : q a with _ | _
    · rw [List.find?_cons_of_neg _ (by simp [ha, hq]),
        List.find?_cons_of_neg _ (by simp [hq])]
      exact ih fun b hb => h b (List.mem_cons_of_mem a hb)
    · rw [List.find?_cons_of_pos _ (by simp [ha, hq]),
        List.find?_cons_of_pos _ (by simp [hq])]

theorem dist_symm (g : UGraph) (u v : Nat) : dist g u v = dist g v u := by
  unfold dist
  exact find?_ext _ fun k _ =>
    decide_eq_decide.mpr ⟨fun h => ball_symm h, fun h => ball_symm h⟩

theorem dist_self {g : UGraph} (hn : 0 < g.nodeCount) (u : Nat) :
    dist g u u = some 0 := by
  obtain ⟨m, hm⟩ : ∃ m, g.nodeCount = m + 1 :=
    ⟨g.nodeCount - 1, (Nat.succ_pred_eq_of_pos hn).symm⟩
  unfold dist
  rw [hm, List.range_succ_eq_map]
  exact List.find?_cons_of_pos _ (by simp [ball])

theorem dist_mem_ball {g : UGraph} {u v k : Nat}
    (h : dist g u v = some k) : v ∈ ball g u k := by
  have := List.find?_some h
  exact of_decide_eq_true this

theorem dist_eq_zero {g : UGraph} {u v : Nat}
    (h : dist g u v = some 0) : v = u := by
  have := dist_mem_ball h
  simpa [ball] using this

theorem dist_pos_iff {g : UGraph} (hn : 0 < g.nodeCount) {s t d : Nat}
    (h : dist g s t = some d) : 0 < d ↔ t ≠ s := by
  constructor
  · rintro hd rfl
    rw [dist_self hn t] at h
    injection h with h
    omega
  · intro hts
    rcases Nat.eq_zero_or_pos d with rfl | hd
    · exact absurd (dist_eq_zero h) hts
    · exact hd

/-! ### The collected sample is exactly the ordered reachable pairs -/

theorem row_eq (g : UGraph) (hn : 0 < g.nodeCount) (s : Nat) (l : List Nat) :
    (l.filterMap (fun t => dist g s t)).filter (fun d => decide (0 < d)) =
      (l.filter (fun t => decide (t ≠ s ∧ (dist g s t).isSome))).map
        (fun t => distD g s t) := by
  induction l with
  | nil => rfl
  | cons t l ih =>
    rcases h : dist g s t with _ | d
    · simp [List.filterMap_cons, List.filter_cons, h, ih]
    · by_cases hts : t = s
      · subst hts
        simp [List.filterMap_cons, List.filter_cons, dist_self hn, ih]
      · have hd : 0 < d := (dist_pos_iff hn h).mpr hts
        simp [List.filterMap_cons, List.filter_cons, h, hd, hts, ih, distD]

theorem pairList_map_eq (g : UGraph) :
    (pairList g).map (fun p => distD g p.1 p.2) = sample g := by
  rcases Nat.eq_zero_or_pos g.nodeCount with hz | hn
  · simp [pairList, sample, hz]
  · unfold pairList sample dijkstraValues
    rw [List.map_flatMap]
    refine List.flatMap_congr ?_
    intro s _
    rw [List.map_map]
    exact (row_eq g hn s (List.range g.nodeCount)).symm

theorem mem_pairList {g : UGraph} {s t : Nat} :
    (s, t) ∈ pairList g ↔
      s < g.nodeCount ∧ t < g.nodeCount ∧ t ≠ s ∧ (dist g s t).isSome := by
  simp only [pairList, List.mem_flatMap, List.mem_map, List.mem_filter,
    List.mem_range, decide_eq_true_eq, Prod.mk.injEq]
  constructor
  · rintro ⟨a, ha, b, ⟨hb, hcond⟩, rfl, rfl⟩
    exact ⟨ha, hb, hcond⟩
  · rintro ⟨hs, ht, hcond⟩
    exact ⟨s, hs, t, ⟨ht, hcond⟩, rfl, rfl⟩

theorem pairList_nodup (g : UGraph) : (pairList g).Nodup := by
  unfold pairList
  rw [List.nodup_flatMap]
  constructor
  · intro s _
    exact (List.Nodup.filter _ (List.nodup_range _)).map
      (fun a b h => by injection h)
  · rw [List.pairwise_iff_forall_sublist]
    rintro s₁ s₂ hsub
    have hne : s₁ ≠ s₂ := by
      have := List.Sublist.nodup hsub (List.nodup_range g.nodeCount)
      simp at this
      exact this
    intro p hp₁ hp₂
    simp only [List.mem_map] at hp₁ hp₂
    rcases hp₁ with ⟨t₁, _, rfl⟩
    rcases hp₂ with ⟨t₂, _, h⟩
    injection h with h₁ h₂
    exact hne h₁.symm

/-- C1: `calculate_mean_separation` returns the sum of `dist(s,t)` over
all ordered pairs `(s,t)` with `t` reachable from `s` and `t ≠ s`,
divided by the number of such pairs; the pair list contains each direction
of every unordered pair of distinct mutually reachable nodes exactly once
(with equal distances), no self-pair, and no unreachable pair. -/
theorem mean_separation_is_pair_average (g : UGraph) :
    calculate_mean_separation g =
        ((pairList g).map (fun p => ((distD g p.1 p.2 : ℚ)))).sum /
          ((pairList g).length : ℚ)
      ∧ (∀ s t : Nat, dist g s t = dist g t s)
      ∧ (∀ s : Nat, (s, s) ∉ pairList g)
      ∧ (∀ s t : Nat, (s, t) ∈ pairList g ↔ (t, s) ∈ pairList g)
      ∧ (∀ p ∈ pairList g,
          (pairList g).countP (fun q => decide (q = p)) = 1
            ∧ distD g p.1 p.2 = distD g p.2 p.1) := by
  have hmap : (pairList g).map (fun p => ((distD g p.1 p.2 : ℚ))) =
      sampleQ g := by
    unfold sampleQ
    rw [← pairList_map_eq, List.map_map]
    rfl
  have hlen : (pairList g).length = (sampleQ g).length := by
    rw [← hmap, List.length_map]
  refine ⟨?_, fun s t => dist_symm g s t, ?_, ?_, ?_⟩
  · unfold calculate_mean_separation meanList
    rw [hmap, hlen]
    by_cases h0 : (sampleQ g).length = 0
    · rw [if_pos h0, h0]
      rw [List.length_eq_zero] at h0
      simp [h0]
    · rw [if_neg h0]
  · intro s hs
    rw [mem_pairList] at hs
    exact hs.2.2.1 rfl
  · intro s t
    rw [mem_pairList, mem_pairList, dist_symm g t s]
    constructor
    · rintro ⟨h1, h2, h3, h4⟩
      exact ⟨h2, h1, h3.symm, h4⟩
    · rintro ⟨h1, h2, h3, h4⟩
      exact ⟨h2, h1, h3.symm, h4⟩
  · intro p hp
    refine ⟨List.count_eq_one_of_mem (pairList_nodup g) hp, ?_⟩
    unfold distD
    rw [dist_symm g p.1 p.2]

/-! ### Degenerate inputs -/

/-- C2: on an empty distance sample all three separation statistics return
exactly `0`, and the degree distribution of a zero-node graph is the empty
mapping. -/
theorem stats_degrade_to_zero (g : UGraph) (h : sample g = []) :
    calculate_mean_separation g = 0
      ∧ calculate_standard_deviation_separation g = 0
      ∧ calculate_median_separation g = 0
      ∧ (g.nodeCount = 0 → calculate_degree_distribution g = fun _ => 0) := by
  have hq : sampleQ g = [] := by rw [sampleQ, h]; rfl
  refine ⟨?_, ?_, ?_, ?_⟩
  · simp [calculate_mean_separation, meanList, hq]
  · simp [calculate_standard_deviation_separation, stddevList, hq]
  · simp [calculate_median_separation, medianList, hq]
  · intro h0
    funext d
    simp [calculate_degree_distribution, h0]

/-- Witness for C2 at the zero-node graph. -/
theorem stats_degrade_to_zero_witness :
    sample ⟨0, []⟩ = []
      ∧ (calculate_mean_separation ⟨0, []⟩ = 0
          ∧ calculate_standard_deviation_separation ⟨0, []⟩ = 0
          ∧ calculate_median_separation ⟨0, []⟩ = 0
          ∧ ((⟨0, []⟩ : UGraph).nodeCount = 0 →
              calculate_degree_distribution ⟨0, []⟩ = fun _ => 0)) :=
  ⟨rfl, stats_degrade_to_zero ⟨0, []⟩ rfl⟩

/-! ### Parser behaviour -/

/-- C7: a line whose whitespace-split token count is not two leaves the
loader state untouched: the loaded graph equals the one built from the
input with that line removed. -/
theorem malformed_line_skipped (pre post : List (List Char))
    (line : List Char) (h : (tokenize line).length ≠ 2) :
    load_edges (pre ++ line :: post) = load_edges (pre ++ post) := by
  have hstep : ∀ st, loadStep st line = st := by
    intro st
    simp [loadStep, h]
  unfold load_edges
  rw [List.foldl_append, List.foldl_cons, hstep, ← List.foldl_append]

/-- Witness for C7: dropping the single-token line `"5"` does not change
the loaded graph. -/
theorem malformed_line_skipped_witness :
    (tokenize ['5']).length ≠ 2
      ∧ load_edges ([['1', ' ', '2']] ++ ['5'] :: [['3', ' ', '4']]) =
          load_edges ([['1', ' ', '2']] ++ [['3', ' ', '4']]) :=
  ⟨by decide,
    malformed_line_skipped [['1', ' ', '2']] [['3', ' ', '4']] ['5']
      (by decide)⟩

theorem load_edges_count (lines : List (List Char)) :
    ∀ st : List (List Char) × List (Nat × Nat),
      ((lines.foldl loadStep st).2).length =
        st.2.length +
          (lines.filter (fun l => decide ((tokenize l).length = 2))).length := by
  induction lines with
  | nil => intro st; simp
  | cons l lines ih =>
    intro st
    rw [List.foldl_cons, ih, List.filter_cons]
    by_cases h2 : (tokenize l).length = 2
    · have : (loadStep st l).2.length = st.2.length + 1 := by
        simp [loadStep, h2]
      rw [this]
      simp [h2]
      omega
    · have : (loadStep st l).2 = st.2 := by simp [loadStep, h2]
      rw [this]
      simp [h2]

theorem foldr_nbrs_length (w : Nat) (es : List (Nat × Nat))
    (init : List Nat) :
    (es.foldr
        (fun e acc =>
          if e.1 = w then e.2 :: acc
          else if e.2 = w then e.1 :: acc else acc)
        init).length =
      (es.foldr
        (fun e acc =>
          if e.1 = w then e.2 :: acc
          else if e.2 = w then e.1 :: acc else acc)
        []).length + init.length := by
  induction es with
  | nil => simp
  | cons a es ih =>
    by_cases h1 : a.1 = w <;> by_cases h2 : a.2 = w <;>
      simp [List.foldr_cons, h1, h2, ih] <;> omega

/-- C5: every well-formed line inserts its own edge (the edge count of the
loaded graph equals the number of two-token lines, with no deduplication),
and appending a (possibly parallel) edge incident to a node increases that
node's neighbor count — the degree used by
`calculate_degree_distribution` — by exactly one. -/
theorem parallel_edges_counted (lines : List (List Char)) (n : Nat)
    (es : List (Nat × Nat)) (u v w : Nat) (h : u = w ∨ v = w) :
    (load_edges lines).edges.length =
        (lines.filter (fun l => decide ((tokenize l).length = 2))).length
      ∧ neighborsCount ⟨n, es ++ [(u, v)]⟩ w =
          neighborsCount ⟨n, es⟩ w + 1 := by
  constructor
  · show ((lines.foldl loadStep ([], [])).2).length = _
    rw [load_edges_count lines ([], [])]
    simp
  · show (nbrs ⟨n, es ++ [(u, v)]⟩ w).length = (nbrs ⟨n, es⟩ w).length + 1
    unfold nbrs
    rw [List.foldr_append, foldr_nbrs_length]
    have h1 : ((([(u, v)] : List (Nat × Nat)).foldr
        (fun e acc =>
          if e.1 = w then e.2 :: acc
          else if e.2 = w then e.1 :: acc else acc)
        []).length) = 1 := by
      by_cases hu : u = w
      · simp [hu]
      · rcases h with h | h
        · exact absurd h hu
        · simp [hu, h]
    rw [h1]

/-- Witness for C5: the duplicated line `"1 2"` gives two parallel edges
and node `0` gets degree `2`. -/
theorem parallel_edges_counted_witness :
    (load_edges [['1', ' ', '2'], ['1', ' ', '2']]).edges.length =
        (([['1', ' ', '2'], ['1', ' ', '2']] : List (List Char)).filter
          (fun l => decide ((tokenize l).length = 2))).length
      ∧ neighborsCount ⟨2, [(0, 1)] ++ [(0, 1)]⟩ 0 =
          neighborsCount ⟨2, [(0, 1)]⟩ 0 + 1 :=
  parallel_edges_counted [['1', ' ', '2'], ['1', ' ', '2']] 2 [(0, 1)] 0 1 0
    (Or.inl rfl)

/-! ### Sample elements are positive integers -/

theorem sample_pos {g : UGraph} {d : Nat} (hd : d ∈ sample g) : 0 < d := by
  unfold sample at hd
  rcases List.mem_flatMap.mp hd with ⟨s, _, h⟩
  exact of_decide_eq_true (List.mem_filter.mp h).2

/-- C10: every element of the collected distance vector is the cast of a
strictly positive integer distance, so the sort comparator is total on the
collected elements (no `NaN`-like value ever enters the vector). -/
theorem sample_elements_are_positive_integers (g : UGraph) (x : ℚ)
    (hx : x ∈ sampleQ g) : ∃ d : Nat, 0 < d ∧ x = (d : ℚ) := by
  unfold sampleQ at hx
  rcases List.mem_map.mp hx with ⟨d, hd, rfl⟩
  exact ⟨d, sample_pos hd, rfl⟩

/-- Witness for C10 on the single-edge graph. -/
theorem sample_elements_are_positive_integers_witness :
    (1 : ℚ) ∈ sampleQ ⟨2, [(0, 1)]⟩
      ∧ ∃ d : Nat, 0 < d ∧ (1 : ℚ) = (d : ℚ) :=
  ⟨by decide,
    sample_elements_are_positive_integers ⟨2, [(0, 1)]⟩ 1 (by decide)⟩

/-! ### Median and standard deviation -/

/-- C3: on a non-empty sample, `calculate_median_separation` returns the
middle element of the ascending sorted sample for odd length, and the
arithmetic mean of the two central elements for even length: for any
ascending sorted rearrangement `l` of the collected sample, the result is
the corresponding central-element expression of `l`. -/
theorem median_is_sorted_middle (g : UGraph) (l : List ℚ)
    (hp : (sampleQ g).Perm l) (hs : l.Sorted (fun a b => a ≤ b))
    (hne : sampleQ g ≠ []) :
    calculate_median_separation g =
      if (sampleQ g).length % 2 = 0 then
        (l.getD ((sampleQ g).length / 2 - 1) 0 +
          l.getD ((sampleQ g).length / 2) 0) / 2
      else l.getD ((sampleQ g).length / 2) 0 := by
  have hsort : List.insertionSort (fun a b => a ≤ b) (sampleQ g) = l :=
    List.eq_of_perm_of_sorted
      ((List.perm_insertionSort _ _).trans hp)
      (List.sorted_insertionSort _ _) hs
  have hempty : (sampleQ g).isEmpty = false := by
    rcases hl : sampleQ g with _ | ⟨a, l₂⟩
    · exact absurd hl hne
    · rfl
  unfold calculate_median_separation medianList
  rw [hempty]
  simp only [Bool.false_eq_true, if_false, hsort, ← hp.length_eq]

/-- Witness for C3 on the single-edge graph (sample `[1, 1]`, even
length). -/
theorem median_is_sorted_middle_witness :
    (sampleQ ⟨2, [(0, 1)]⟩).Perm [(1 : ℚ), 1]
      ∧ ([(1 : ℚ), 1]).Sorted (fun a b => a ≤ b)
      ∧ sampleQ ⟨2, [(0, 1)]⟩ ≠ []
      ∧ calculate_median_separation ⟨2, [(0, 1)]⟩ =
          if (sampleQ ⟨2, [(0, 1)]⟩).length % 2 = 0 then
            (([(1 : ℚ), 1]).getD ((sampleQ ⟨2, [(0, 1)]⟩).length / 2 - 1) 0 +
              ([(1 : ℚ), 1]).getD ((sampleQ ⟨2, [(0, 1)]⟩).length / 2) 0) / 2
          else ([(1 : ℚ), 1]).getD ((sampleQ ⟨2, [(0, 1)]⟩).length / 2) 0 :=
  ⟨by decide, by decide, by decide,
    median_is_sorted_middle ⟨2, [(0, 1)]⟩ [(1 : ℚ), 1]
      (by decide) (by decide) (by decide)⟩

/-- C4: on a non-empty sample, `calculate_standard_deviation_separation`
returns the population standard deviation: the square root of the sum of
squared deviations from the sample mean (the value returned by
`calculate_mean_separation`) divided by the full sample count, not the
count minus one. -/
theorem stddev_is_population (g : UGraph) (hne : sampleQ g ≠ []) :
    calculate_standard_deviation_separation g =
      Real.sqrt
        ((((sampleQ g).map
            (fun d => (d - calculate_mean_separation g) ^ 2)).sum /
          ((sampleQ g).length : ℚ) : ℚ) : ℝ) := by
  have hempty : (sampleQ g).isEmpty = false := by
    rcases hl : sampleQ g with _ | ⟨a, l₂⟩
    · exact absurd hl hne
    · rfl
  have hlen : (sampleQ g).length ≠ 0 := by
    intro h0
    exact hne (List.length_eq_zero.mp h0)
  have hmean : calculate_mean_separation g =
      (sampleQ g).sum / ((sampleQ g).length : ℚ) := by
    unfold calculate_mean_separation meanList
    rw [if_neg hlen]
  unfold calculate_standard_deviation_separation stddevList
  rw [hempty]
  simp only [Bool.false_eq_true, if_false, hmean]

/-- Witness for C4 on the single-edge graph. -/
theorem stddev_is_population_witness :
    sampleQ ⟨2, [(0, 1)]⟩ ≠ []
      ∧ calculate_standard_deviation_separation ⟨2, [(0, 1)]⟩ =
          Real.sqrt
            ((((sampleQ ⟨2, [(0, 1)]⟩).map
                (fun d =>
                  (d - calculate_mean_separation ⟨2, [(0, 1)]⟩) ^ 2)).sum /
              ((sampleQ ⟨2, [(0, 1)]⟩).length : ℚ) : ℚ) : ℝ) :=
  ⟨by decide, stddev_is_population ⟨2, [(0, 1)]⟩ (by decide)⟩

/-! ### Self-loops and token distinctness -/

theorem getOrInsert_lookup (names : List (List Char)) (s : List Char) :
    (getOrInsert names s).1[(getOrInsert names s).2]? = some s := by
  induction names with
  | nil => rfl
  | cons t rest ih =>
    by_cases h : t = s
    · simp [getOrInsert, h]
    · simp [getOrInsert, h, ih]

theorem getOrInsert_stable (names : List (List Char)) (s : List Char)
    (i : Nat) (hi : i < names.length) :
    (getOrInsert names s).1[i]? = names[i]? := by
  induction names generalizing i with
  | nil => simp at hi
  | cons t rest ih =>
    by_cases h : t = s
    · simp [getOrInsert, h]
    · cases i with
      | zero => simp [getOrInsert, h]
      | succ j =>
        rw [show getOrInsert (t :: rest) s =
            (t :: (getOrInsert rest s).1, (getOrInsert rest s).2 + 1) from by
          simp [getOrInsert, h]]
        simp only [List.getElem?_cons_succ]
        exact ih j (by simpa using hi)

theorem getOrInsert_idx_lt (names : List (List Char)) (s : List Char) :
    (getOrInsert names s).2 < (getOrInsert names s).1.length := by
  induction names with
  | nil => simp [getOrInsert]
  | cons t rest ih =>
    by_cases h : t = s
    · simp [getOrInsert, h]
    · simp only [getOrInsert, h, if_neg, List.length_cons]
      simp only [not_false_iff, if_false, List.length_cons]
      omega

theorem getOrInsert_ne (names : List (List Char)) (a b : List Char)
    (hab : a ≠ b) :
    (getOrInsert (getOrInsert names a).1 b).2 ≠ (getOrInsert names a).2 := by
  intro hEq
  have h1 : (getOrInsert names a).1[(getOrInsert names a).2]? = some a :=
    getOrInsert_lookup names a
  have hlt : (getOrInsert names a).2 < (getOrInsert names a).1.length :=
    getOrInsert_idx_lt names a
  have h2 : (getOrInsert (getOrInsert names a).1 b).1[
      (getOrInsert (getOrInsert names a).1 b).2]? = some b :=
    getOrInsert_lookup (getOrInsert names a).1 b
  rw [hEq, getOrInsert_stable (getOrInsert names a).1 b _ hlt, h1] at h2
  exact hab (by injection h2)

theorem load_no_self_loop_aux (lines : List (List Char))
    (hgood : ∀ l ∈ lines, (tokenize l).length = 2 →
      (tokenize l).getD 0 [] ≠ (tokenize l).getD 1 []) :
    ∀ st : List (List Char) × List (Nat × Nat),
      (∀ e ∈ st.2, e.1 ≠ e.2) →
      ∀ e ∈ (lines.foldl loadStep st).2, e.1 ≠ e.2 := by
  induction lines with
  | nil => intro st hst; simpa using hst
  | cons l lines ih =>
    intro st hst
    rw [List.foldl_cons]
    refine ih (fun x hx h2 => hgood x (List.mem_cons_of_mem l hx) h2)
      (loadStep st l) ?_
    intro e he
    by_cases h2 : (tokenize l).length = 2
    · have hstep : (loadStep st l).2 =
          st.2 ++ [((getOrInsert st.1 ((tokenize l).getD 0 [])).2,
            (getOrInsert (getOrInsert st.1 ((tokenize l).getD 0 [])).1
              ((tokenize l).getD 1 [])).2)] := by
        simp [loadStep, h2]
      rw [hstep, List.mem_append] at he
      rcases he with he | he
      · exact hst e he
      · have htok : (tokenize l).getD 0 [] ≠ (tokenize l).getD 1 [] :=
          hgood l (List.mem_cons_self l lines) h2
        simp only [List.mem_singleton] at he
        subst he
        exact (getOrInsert_ne st.1 _ _ htok).symm
    · have hstep : (loadStep st l).2 = st.2 := by simp [loadStep, h2]
      rw [hstep] at he
      exact hst e he

/-- C6 amended: the loader produces no self-loop provided every two-token
line has two distinct tokens; the distinctness check is performed by no
code, so it must hold of the input.  (A line with two equal tokens, such
as `"5 5"`, does produce a self-loop — see the counterexample.) -/
theorem no_self_loop_of_distinct_tokens (lines : List (List Char))
    (hgood : ∀ l ∈ lines, (tokenize l).length = 2 →
      (tokenize l).getD 0 [] ≠ (tokenize l).getD 1 []) :
    ∀ e ∈ (load_edges lines).edges, e.1 ≠ e.2 :=
  load_no_self_loop_aux lines hgood ([], []) (by simp)

/-- Witness for the amended C6 on the well-formed line `"1 2"`. -/
theorem no_self_loop_of_distinct_tokens_witness :
    (∀ l ∈ ([['1', ' ', '2']] : List (List Char)),
        (tokenize l).length = 2 →
        (tokenize l).getD 0 [] ≠ (tokenize l).getD 1 [])
      ∧ ∀ e ∈ (load_edges [['1', ' ', '2']]).edges, e.1 ≠ e.2 :=
  ⟨by decide, no_self_loop_of_distinct_tokens [['1', ' ', '2']] (by decide)⟩

/-- Counterexample to C6 as stated: the input line `"5 5"` has exactly two
(whitespace-separated) tokens, so it is accepted, both tokens resolve to
the same node, and the parser emits the self-loop edge `(0, 0)`. -/
theorem self_loop_from_equal_tokens :
    (load_edges [['5', ' ', '5']]).edges = [(0, 0)] := by decide

/-! ### Deduplication leaves the statistics unchanged -/

/-- Counterexample to C8 as stated: on the 4-node path graph (a graph with
a non-trivial distance sample) replacing the duplicated sample by the
deduplicated one changes none of the three statistics — mean, standard
deviation and median all keep the same value, contradicting the claim that
each yields a different value. -/
theorem dedup_changes_no_stat_on_path4 :
    calculate_mean_separation ⟨4, [(0, 1), (1, 2), (2, 3)]⟩ =
        meanList (dedupQ ⟨4, [(0, 1), (1, 2), (2, 3)]⟩)
      ∧ calculate_standard_deviation_separation ⟨4, [(0, 1), (1, 2), (2, 3)]⟩ =
          stddevList (dedupQ ⟨4, [(0, 1), (1, 2), (2, 3)]⟩)
      ∧ calculate_median_separation ⟨4, [(0, 1), (1, 2), (2, 3)]⟩ =
          medianList (dedupQ ⟨4, [(0, 1), (1, 2), (2, 3)]⟩) := by
  have hsQ : sampleQ ⟨4, [(0, 1), (1, 2), (2, 3)]⟩ =
      [1, 2, 3, 1, 1, 2, 2, 1, 1, 3, 2, 1] := by decide
  have hdQ : dedupQ ⟨4, [(0, 1), (1, 2), (2, 3)]⟩ = [1, 2, 3, 1, 2, 1] := by
    decide
  refine ⟨?_, ?_, ?_⟩
  · show meanList (sampleQ ⟨4, [(0, 1), (1, 2), (2, 3)]⟩) = _
    rw [hsQ, hdQ]
    norm_num [meanList]
  · show stddevList (sampleQ ⟨4, [(0, 1), (1, 2), (2, 3)]⟩) = _
    rw [hsQ, hdQ]
    unfold stddevList
    norm_num
  · show medianList (sampleQ ⟨4, [(0, 1), (1, 2), (2, 3)]⟩) = _
    rw [hsQ, hdQ]
    norm_num [medianList, List.insertionSort, List.orderedInsert]

/-- Contribution of the ordered pair `(s, t)` to the (rational) distance
sample: the distance when `t` is reachable and the distance is positive,
nothing otherwise. -/
def fval (g : UGraph) (s t : Nat) : Option ℚ :=
  match dist g s t with
  | some d => if 0 < d then some ((d : ℚ)) else none
  | none => none

/-- Option-to-multiset: `none` contributes nothing, `some x` the single
element `x`. -/
def mopt : Option ℚ → Multiset ℚ
  | none => 0
  | some x => {x}

theorem fval_symm (g : UGraph) (s t : Nat) : fval g s t = fval g t s := by
  unfold fval
  rw [dist_symm]

theorem fval_diag {g : UGraph} (hn : 0 < g.nodeCount) (s : Nat) :
    fval g s s = none := by
  unfold fval
  rw [dist_self hn]
  simp

theorem fval_row (g : UGraph) (s : Nat) (l : List Nat) :
    ((l.filterMap (fun t => dist g s t)).filter
        (fun d => decide (0 < d))).map (fun (d : Nat) => (d : ℚ)) =
      l.filterMap (fval g s) := by
  induction l with
  | nil => rfl
  | cons t l ih =>
    rcases h : dist g s t with _ | d
    · simp [List.filterMap_cons, fval, h, ih]
    · by_cases hd : 0 < d
      · simp [List.filterMap_cons, List.filter_cons, fval, h, hd, ih]
      · simp [List.filterMap_cons, List.filter_cons, fval, h, hd, ih]

theorem sampleQ_eq (g : UGraph) :
    sampleQ g =
      (List.range g.nodeCount).flatMap
        (fun s => (List.range g.nodeCount).filterMap (fval g s)) := by
  unfold sampleQ sample dijkstraValues
  rw [List.map_flatMap]
  exact List.flatMap_congr fun s _ => fval_row g s (List.range g.nodeCount)

theorem dedupQ_eq (g : UGraph) :
    dedupQ g =
      (List.range g.nodeCount).flatMap
        (fun s =>
          ((List.range g.nodeCount).filter
            (fun t => decide (s < t))).filterMap (fval g s)) := by
  unfold dedupQ dedupSample
  rw [List.map_flatMap]
  exact List.flatMap_congr fun s _ =>
    fval_row g s ((List.range g.nodeCount).filter (fun t => decide (s < t)))

theorem list_map_sum_range (F : Nat → Multiset ℚ) (n : Nat) :
    ((List.range n).map F).sum = ∑ s ∈ Finset.range n, F s := by
  induction n with
  | zero => simp
  | succ n ih =>
    rw [List.range_succ, List.map_append, List.sum_append,
      Finset.sum_range_succ, ih]
    simp

theorem coe_flatMap_range (F : Nat → List ℚ) (n : Nat) :
    (((List.range n).flatMap F : List ℚ) : Multiset ℚ) =
      ∑ s ∈ Finset.range n, ((F s : List ℚ) : Multiset ℚ) := by
  induction n with
  | zero => simp
  | succ n ih =>
    rw [List.range_succ, List.flatMap_append, Finset.sum_range_succ, ← ih,
      ← Multiset.coe_add]
    simp

theorem coe_filterMap_mopt (h : Nat → Option ℚ) (l : List Nat) :
    ((l.filterMap h : List ℚ) : Multiset ℚ) =
      (l.map (fun t => mopt (h t))).sum := by
  induction l with
  | nil => rfl
  | cons t l ih =>
    rcases ht : h t with _ | x
    · simp [List.filterMap_cons, ht, ih, mopt]
    · rw [List.filterMap_cons, List.map_cons, List.sum_cons, ← ih, ht]
      simp [mopt]

theorem coe_filter_filterMap_mopt (p : Nat → Bool) (h : Nat → Option ℚ)
    (l : List Nat) :
    (((l.filter p).filterMap h : List ℚ) : Multiset ℚ) =
      (l.map (fun t => if p t then mopt (h t) else 0)).sum := by
  induction l with
  | nil => rfl
  | cons t l ih =>
    rcases hp : p t with _ | _
    · simp [List.filter_cons, hp, ih]
    · rcases ht : h t with _ | x
      · simp [List.filter_cons, List.filterMap_cons, hp, ht, ih, mopt]
      · rw [List.filter_cons, if_pos (by rw [hp]), List.filterMap_cons,
          List.map_cons, List.sum_cons, ← ih, ht]
        simp [hp, mopt]

theorem sample_multiset_sum (g : UGraph) :
    ((sampleQ g : List ℚ) : Multiset ℚ) =
      ∑ s ∈ Finset.range g.nodeCount, ∑ t ∈ Finset.range g.nodeCount,
        mopt (fval g s t) := by
  rw [sampleQ_eq, coe_flatMap_range]
  refine Finset.sum_congr rfl fun s _ => ?_
  rw [coe_filterMap_mopt, list_map_sum_range]

theorem dedup_multiset_sum (g : UGraph) :
    ((dedupQ g : List ℚ) : Multiset ℚ) =
      ∑ s ∈ Finset.range g.nodeCount, ∑ t ∈ Finset.range g.nodeCount,
        if s < t then mopt (fval g s t) else 0 := by
  rw [dedupQ_eq, coe_flatMap_range]
  refine Finset.sum_congr rfl fun s _ => ?_
  rw [coe_filter_filterMap_mopt, list_map_sum_range]
  exact Finset.sum_congr rfl fun t _ => by
    by_cases h : s < t <;> simp [h]

theorem sample_multiset_eq (g : UGraph) :
    ((sampleQ g : List ℚ) : Multiset ℚ) =
      ((dedupQ g : List ℚ) : Multiset ℚ) +
        ((dedupQ g : List ℚ) : Multiset ℚ) := by
  rcases Nat.eq_zero_or_pos g.nodeCount with hz | hn
  · have h1 : sampleQ g = [] := by rw [sampleQ_eq, hz]; rfl
    have h2 : dedupQ g = [] := by rw [dedupQ_eq, hz]; rfl
    rw [h1, h2]
    rfl
  · rw [sample_multiset_sum, dedup_multiset_sum]
    have hsplit :
        (∑ s ∈ Finset.range g.nodeCount, ∑ t ∈ Finset.range g.nodeCount,
            mopt (fval g s t)) =
          (∑ s ∈ Finset.range g.nodeCount, ∑ t ∈ Finset.range g.nodeCount,
              if s < t then mopt (fval g s t) else 0) +
            ∑ s ∈ Finset.range g.nodeCount, ∑ t ∈ Finset.range g.nodeCount,
              if t < s then mopt (fval g s t) else 0 := by
      rw [← Finset.sum_add_distrib]
      refine Finset.sum_congr rfl fun s hs => ?_
      rw [← Finset.sum_add_distrib]
      refine Finset.sum_congr rfl fun t ht => ?_
      rcases lt_trichotomy s t with h | h | h
      · simp [h, not_lt_of_gt h]
      · subst h
        simp [lt_irrefl, fval_diag hn, mopt]
      · simp [h, not_lt_of_gt h]
    have hswap :
        (∑ s ∈ Finset.range g.nodeCount, ∑ t ∈ Finset.range g.nodeCount,
            if t < s then mopt (fval g s t) else 0) =
          ∑ s ∈ Finset.range g.nodeCount, ∑ t ∈ Finset.range g.nodeCount,
            if s < t then mopt (fval g s t) else 0 := by
      rw [Finset.sum_comm]
      refine Finset.sum_congr rfl fun s _ => ?_
      refine Finset.sum_congr rfl fun t _ => ?_
      rw [fval_symm]
    rw [hsplit, hswap]

theorem flatMap_pair_perm (S : List ℚ) :
    (S.flatMap (fun a => [a, a])).Perm (S ++ S) := by
  induction S with
  | nil => rfl
  | cons a S ih =>
    show (a :: a :: S.flatMap (fun a => [a, a])).Perm (a :: (S ++ a :: S))
    exact List.Perm.cons a ((List.Perm.cons a ih).trans List.perm_middle.symm)

theorem mem_flatMap_pair {S : List ℚ} {b : ℚ} :
    b ∈ S.flatMap (fun a => [a, a]) ↔ b ∈ S := by
  simp [List.mem_flatMap]

theorem sorted_flatMap_pair (S : List ℚ)
    (hs : S.Sorted (fun a b : ℚ => a ≤ b)) :
    (S.flatMap (fun a => [a, a])).Sorted (fun a b : ℚ => a ≤ b) := by
  induction S with
  | nil => simp
  | cons a S ih =>
    rw [List.sorted_cons] at hs
    show ((a :: a :: S.flatMap (fun a => [a, a])).Sorted
      (fun a b : ℚ => a ≤ b))
    rw [List.sorted_cons, List.sorted_cons]
    refine ⟨?_, ?_, ih hs.2⟩
    · intro b hb
      rcases List.mem_cons.mp hb with rfl | hb
      · exact le_refl b
      · exact hs.1 b (mem_flatMap_pair.mp hb)
    · intro b hb
      exact hs.1 b (mem_flatMap_pair.mp hb)

theorem getD_flatMap_pair (S : List ℚ) (i : Nat) :
    (S.flatMap (fun a => [a, a])).getD i 0 = S.getD (i / 2) 0 := by
  induction S generalizing i with
  | nil => rfl
  | cons a S ih =>
    show (a :: a :: S.flatMap (fun a => [a, a])).getD i 0 = _
    rcases i with _ | i
    · rfl
    rcases i with _ | j
    · rfl
    rw [show j + 1 + 1 = j + 2 from rfl, List.getD_cons_succ,
      List.getD_cons_succ, ih, show (j + 2) / 2 = j / 2 + 1 from by omega,
      List.getD_cons_succ]

theorem length_flatMap_pair (S : List ℚ) :
    (S.flatMap (fun a => [a, a])).length = 2 * S.length := by
  induction S with
  | nil => rfl
  | cons a S ih =>
    show (a :: a :: S.flatMap (fun a => [a, a])).length = _
    simp only [List.length_cons, ih]
    omega

theorem medianList_perm (l₁ l₂ : List ℚ) (hp : l₁.Perm l₂) :
    medianList l₁ = medianList l₂ := by
  have hsort : List.insertionSort (fun a b : ℚ => a ≤ b) l₁ =
      List.insertionSort (fun a b : ℚ => a ≤ b) l₂ :=
    List.eq_of_perm_of_sorted
      ((List.perm_insertionSort _ _).trans
        (hp.trans (List.perm_insertionSort _ l₂).symm))
      (List.sorted_insertionSort _ _) (List.sorted_insertionSort _ _)
  have hl := hp.length_eq
  have hemp : l₁.isEmpty = l₂.isEmpty := by
    cases l₁ <;> cases l₂ <;> simp_all
  unfold medianList
  rw [hemp, hsort]

theorem medianList_double (D : List ℚ) :
    medianList (D ++ D) = medianList D := by
  by_cases hD : D = []
  · subst hD; rfl
  have hne : D ≠ [] := hD
  have hSsorted : (List.insertionSort (fun a b : ℚ => a ≤ b) D).Sorted
      (fun a b : ℚ => a ≤ b) := List.sorted_insertionSort _ _
  have hSperm : (List.insertionSort (fun a b : ℚ => a ≤ b) D).Perm D :=
    List.perm_insertionSort _ _
  have hsort2 : List.insertionSort (fun a b : ℚ => a ≤ b) (D ++ D) =
      (List.insertionSort (fun a b : ℚ => a ≤ b) D).flatMap
        (fun a => [a, a]) :=
    List.eq_of_perm_of_sorted
      ((List.perm_insertionSort _ _).trans
        ((flatMap_pair_perm _).trans (hSperm.append hSperm)).symm)
      (List.sorted_insertionSort _ _) (sorted_flatMap_pair _ hSsorted)
  have hSlen : (List.insertionSort (fun a b : ℚ => a ≤ b) D).length =
      D.length := hSperm.length_eq
  have hDlen : 0 < D.length := List.length_pos.mpr hne
  have hempty1 : (D ++ D).isEmpty = false :=
    Bool.eq_false_iff.mpr fun h =>
      hne (List.append_eq_nil.mp (List.isEmpty_iff.mp h)).1
  have hempty2 : D.isEmpty = false :=
    Bool.eq_false_iff.mpr fun h => hne (List.isEmpty_iff.mp h)
  simp only [medianList, hempty1, hempty2, Bool.false_eq_true, if_false,
    hsort2, length_flatMap_pair, hSlen, getD_flatMap_pair]
  rw [if_pos (show 2 * D.length % 2 = 0 from by omega),
    show 2 * D.length / 2 = D.length from by omega]
  by_cases hpar : D.length % 2 = 0
  · rw [if_pos hpar,
      show (D.length - 1) / 2 = D.length / 2 - 1 from by omega]
  · rw [if_neg hpar,
      show (D.length - 1) / 2 = D.length / 2 from by omega]
    ring

/-- C8 amended: replacing the duplicated distance multiset (each unordered
pair counted once per direction) by the deduplicated multiset (each
unordered pair counted once) changes none of the three separation
statistics — mean, population standard deviation and median applied to the
deduplicated sample yield exactly the values the code computes on the
duplicated sample, because the duplicated sample is the uniform doubling
of the deduplicated one. -/
theorem dedup_preserves_all_stats (g : UGraph) :
    calculate_mean_separation g = meanList (dedupQ g)
      ∧ calculate_standard_deviation_separation g = stddevList (dedupQ g)
      ∧ calculate_median_separation g = medianList (dedupQ g) := by
  have hperm : (sampleQ g).Perm (dedupQ g ++ dedupQ g) :=
    Multiset.coe_eq_coe.mp (by rw [sample_multiset_eq, Multiset.coe_add])
  have hlen : (sampleQ g).length = 2 * (dedupQ g).length := by
    rw [hperm.length_eq, List.length_append]
    omega
  have hsum : (sampleQ g).sum = (dedupQ g).sum + (dedupQ g).sum := by
    rw [hperm.sum_eq, List.sum_append]
  rcases Nat.eq_zero_or_pos (dedupQ g).length with hz | hpos
  · have hd : dedupQ g = [] := List.length_eq_zero.mp hz
    have hsnil : sampleQ g = [] := by
      have h2 : (sampleQ g).Perm ([] : List ℚ) := by
        rw [hd] at hperm
        simpa using hperm
      exact h2.eq_nil
    refine ⟨?_, ?_, ?_⟩
    · simp [calculate_mean_separation, meanList, hsnil, hd]
    · simp [calculate_standard_deviation_separation, stddevList, hsnil, hd]
    · simp [calculate_median_separation, medianList, hsnil, hd]
  · have hdne : dedupQ g ≠ [] := by
      intro h
      rw [h] at hpos
      simp at hpos
    have hsne : sampleQ g ≠ [] := by
      intro h
      have h0 : (sampleQ g).length = 0 := by rw [h]; rfl
      omega
    have hdouble : ∀ x : ℚ,
        (x + x) / ((sampleQ g).length : ℚ) =
          x / ((dedupQ g).length : ℚ) := by
      intro x
      rw [hlen]
      push_cast
      rw [show x + x = 2 * x from by ring]
      exact mul_div_mul_left x _ two_ne_zero
    have hdiv : (sampleQ g).sum / ((sampleQ g).length : ℚ) =
        (dedupQ g).sum / ((dedupQ g).length : ℚ) := by
      rw [hsum]
      exact hdouble _
    have hempS : (sampleQ g).isEmpty = false :=
      Bool.eq_false_iff.mpr fun h => hsne (List.isEmpty_iff.mp h)
    have hempD : (dedupQ g).isEmpty = false :=
      Bool.eq_false_iff.mpr fun h => hdne (List.isEmpty_iff.mp h)
    refine ⟨?_, ?_, ?_⟩
    · show meanList (sampleQ g) = meanList (dedupQ g)
      unfold meanList
      rw [if_neg (fun h => hsne (List.length_eq_zero.mp h)),
        if_neg (fun h => hdne (List.length_eq_zero.mp h))]
      exact hdiv
    · show stddevList (sampleQ g) = stddevList (dedupQ g)
      simp only [stddevList, hempS, hempD, Bool.false_eq_true, if_false]
      have hvar :
          ((sampleQ g).map
              (fun d =>
                (d - (sampleQ g).sum / ((sampleQ g).length : ℚ)) ^ 2)).sum /
              ((sampleQ g).length : ℚ) =
            ((dedupQ g).map
              (fun d =>
                (d - (dedupQ g).sum / ((dedupQ g).length : ℚ)) ^ 2)).sum /
              ((dedupQ g).length : ℚ) := by
        rw [hdiv]
        rw [(hperm.map
          (fun d =>
            (d - (dedupQ g).sum / ((dedupQ g).length : ℚ)) ^ 2)).sum_eq,
          List.map_append, List.sum_append]
        exact hdouble _
      exact congrArg Real.sqrt (by exact_mod_cast hvar)
    · show medianList (sampleQ g) = medianList (dedupQ g)
      exact (medianList_perm _ _ hperm).trans (medianList_double _)

end DS210
